import Mathlib

/-!
Verification development for the VectorWise ANN search service.

The repository is a thin FastAPI service (src/api/main.py) over an HNSW
index; the index data structure itself lives in the external faiss
library, so — following the specification — the graph, builder and search
engine are modelled here from the spec (sections 3, 4.2, 4.3), while the
serving facade, validation, health and stats endpoints are embedded
directly from the source files.  Vector components are modelled as exact
integers; the spec's distance (section 4.1) is the squared Euclidean
distance, which needs no square roots.
-/

namespace VectorWise

/-- Vectors: fixed-length ordered sequences of numeric components
(spec section 3).  Components are modelled as exact integers: the source's
floating-point numerics are not exactly statable, and every property
claimed here is about ordering and counting, insensitive to the scalar
ring chosen. -/
abbrev Vec : Type := List ℤ

/-- Modelled from the spec: squared Euclidean distance between two vectors
(section 4.1, `distance(a, b)` of the VectorStore, implemented inside
faiss and absent from the repository). -/
def sqDist (a b : Vec) : ℤ := (List.zipWith (fun x y => (x - y) * (x - y)) a b).sum

/-- Modelled from the spec: a graph node (section 3, GraphNode): the highest
layer the node participates in, and one neighbor-id list per layer
(index `l` of `nbrs` is the adjacency list at layer `l`). -/
structure Node where
  maxLayer : Nat
  nbrs : List (List Nat)
deriving DecidableEq

/-- Modelled from the spec: the in-memory index (sections 3 and 4): the
VectorStore (`vectors`, id = position), the HNSW graph (`nodes`, id-aligned
with the store, plus the designated `entryPoint`), the build parameter `M`
and the serving-time tunable `efSearch`.  This is the structure the faiss
library owns in the source repository. -/
structure EngineIndex where
  M : Nat
  efSearch : Nat
  vectors : List Vec
  nodes : List Node
  entryPoint : Option Nat
deriving DecidableEq

/-- Total number of stored vectors (`count()` of the spec's VectorStore,
`index.ntotal` in the source). -/
def EngineIndex.count (g : EngineIndex) : Nat := g.vectors.length

/-- An index holding no vectors at all. -/
def emptyIndex (M efS : Nat) : EngineIndex :=
  { M := M, efSearch := efS, vectors := [], nodes := [], entryPoint := none }

/-- Configured dimension, src/api/main.py line 26. -/
def DIM : Nat := 128

/-- Request body of the search endpoint, src/api/main.py lines 29-31. -/
structure SearchRequest where
  query_vector : List ℤ
  k : Int
deriving DecidableEq

/-- Pydantic field validation of the search request, src/api/main.py line 31:
`k` carries `gt=0` and `le=100`.  FastAPI runs this before the handler. -/
def SearchRequest.valid (r : SearchRequest) : Bool :=
  decide (0 < r.k) && decide (r.k ≤ 100)

/-- Response body of the search endpoint, src/api/main.py lines 33-35. -/
structure SearchResult where
  indices : List Nat
  distances : List ℤ
deriving DecidableEq

/-- Modelled from the spec: engine-internal failures of section 7 that are
not dimension or availability errors (for example `NotFound`, an id lookup
beyond store bounds caused by an ill-formed graph).  In the source these
surface as exceptions thrown by the faiss call. -/
inductive EngineFailure where
  | notFound
deriving DecidableEq

/-- Outcome of an HTTP handler: a value, or an HTTPException with a status
code and a detail string (src/api/main.py raises HTTPException). -/
inductive HResult (α : Type) where
  | ok (value : α)
  | error (statusCode : Nat) (detail : String)
deriving DecidableEq

/-- Shallow embedding of the search endpoint handler, src/api/main.py
lines 66-104.  The two faiss calls made inside the `try` block are
external to the repository and enter as parameters: `normalize` stands for
`faiss.normalize_L2` (line 91) and `engine` for `index.search` (line 94);
an `engine` error corresponds to an exception caught at line 102.  The
branch order is exactly that of the source: index-loaded check (line 76),
dimension check (line 80), then the delegated search. -/
def searchHandlerW (normalize : Vec → Vec)
    (engine : EngineIndex → Vec → Int → Except EngineFailure SearchResult)
    (index : Option EngineIndex) (req : SearchRequest) : HResult SearchResult :=
  match index with
  | none => .error 503 "Index not loaded"
  | some idx =>
    if req.query_vector.length ≠ DIM then
      .error 400 "Query vector dimension mismatch"
    else
      match engine idx (normalize req.query_vector) req.k with
      | .ok r => .ok r
      | .error _ => .error 500 "Search failed"

/-- The framework boundary: pydantic validation (src/api/main.py lines
29-31) runs before the handler; a request failing validation is answered
with a 422 response and the handler body is never entered. -/
def searchEndpoint (normalize : Vec → Vec)
    (engine : EngineIndex → Vec → Int → Except EngineFailure SearchResult)
    (index : Option EngineIndex) (req : SearchRequest) : HResult SearchResult :=
  if req.valid then searchHandlerW normalize engine index req
  else .error 422 "request validation failed"

/-- Response of the health-check endpoint, src/api/main.py lines 56-63. -/
structure HealthResponse where
  service : String
  status : String
  vectors_indexed : Nat
deriving DecidableEq

/-- Shallow embedding of the health-check endpoint, src/api/main.py lines
56-63: it is total and reports `index.ntotal` when an index is loaded and
`0` otherwise (the Python truthiness test `if index`). -/
def rootHandler (index : Option EngineIndex) : HealthResponse :=
  { service := "VectorWise"
    status := "healthy"
    vectors_indexed := match index with
      | some i => i.count
      | none => 0 }

/-- Claim C2: for every query vector whose length differs from the
configured dimension D = 128, the search handler (with an index loaded)
answers with the 400 client error; the statement is universally quantified
over the `engine` parameter, so the delegated search is never consulted and
no state is touched — the rejection happens before any search. -/
theorem dimension_mismatch_rejected (normalize : Vec → Vec)
    (engine : EngineIndex → Vec → Int → Except EngineFailure SearchResult)
    (idx : EngineIndex) (req : SearchRequest)
    (hdim : req.query_vector.length ≠ DIM) :
    searchHandlerW normalize engine (some idx) req =
      .error 400 "Query vector dimension mismatch" := by
  simp [searchHandlerW, hdim]

/-- Witness for C2: the concrete 3-dimensional query of
src/test_api.py lines 59-72 against a D = 128 index is answered 400. -/
theorem dimension_mismatch_rejected_witness :
    searchHandlerW id (fun _ _ _ => Except.error EngineFailure.notFound)
      (some (emptyIndex 32 16)) ⟨[(1:ℤ), 2, 3], 10⟩ =
      .error 400 "Query vector dimension mismatch" :=
  dimension_mismatch_rejected id (fun _ _ _ => Except.error EngineFailure.notFound)
    (emptyIndex 32 16) ⟨[(1:ℤ), 2, 3], 10⟩ (by decide)

/-- Claim C3: request validation accepts exactly the values of `k` with
1 ≤ k ≤ 100 (the service-defined cap), and a request failing validation is
answered 422 for every state and every engine — no search is performed. -/
theorem k_validation_bounds (qv : List ℤ) (k : Int) :
    (SearchRequest.valid ⟨qv, k⟩ = true ↔ 1 ≤ k ∧ k ≤ 100) ∧
    (SearchRequest.valid ⟨qv, k⟩ = false →
      ∀ (normalize : Vec → Vec)
        (engine : EngineIndex → Vec → Int → Except EngineFailure SearchResult)
        (index : Option EngineIndex),
        searchEndpoint normalize engine index ⟨qv, k⟩ =
          .error 422 "request validation failed") := by
  constructor
  · simp only [SearchRequest.valid, Bool.and_eq_true, decide_eq_true_eq]
    omega
  · intro h normalize engine index
    simp [searchEndpoint, h]

/-- Witness for C3: `k = 0` fails validation and is answered 422; `k = 10`
(the value used throughout src/test_api.py) passes validation. -/
theorem k_validation_bounds_witness :
    (searchEndpoint id (fun _ _ _ => Except.error EngineFailure.notFound) none ⟨[], 0⟩ =
      .error 422 "request validation failed") ∧
    SearchRequest.valid ⟨[], 10⟩ = true :=
  ⟨(k_validation_bounds [] 0).2 (by decide) id
      (fun _ _ _ => Except.error EngineFailure.notFound) none,
    (k_validation_bounds [] 10).1.mpr (by decide)⟩

/-- Claim C9: the index-loaded check precedes the dimension check: with no
index loaded every request — the query dimension may well be wrong — is
answered 503, and a 400 dimension error can only arise with an index
loaded. -/
theorem unavailable_precedes_dimension (normalize : Vec → Vec)
    (engine : EngineIndex → Vec → Int → Except EngineFailure SearchResult)
    (req : SearchRequest) :
    searchHandlerW normalize engine none req = .error 503 "Index not loaded" ∧
    (∀ (index : Option EngineIndex) (d : String),
      searchHandlerW normalize engine index req = .error 400 d → index ≠ none) := by
  refine ⟨rfl, ?_⟩
  intro index d h
  cases index with
  | none => simp [searchHandlerW] at h
  | some idx => simp

/-- Witness for C9: a request that is simultaneously wrong-dimension (3
components) and sent with no index loaded gets the 503 answer, and the 400
answer produced once an index is loaded certifies the index was loaded. -/
theorem unavailable_precedes_dimension_witness :
    searchHandlerW id (fun _ _ _ => Except.error EngineFailure.notFound) none
      ⟨[(1:ℤ), 2, 3], 10⟩ = .error 503 "Index not loaded" ∧
    some (emptyIndex 32 16) ≠ (none : Option EngineIndex) :=
  ⟨(unavailable_precedes_dimension id
      (fun _ _ _ => Except.error EngineFailure.notFound) ⟨[(1:ℤ), 2, 3], 10⟩).1,
    (unavailable_precedes_dimension id
      (fun _ _ _ => Except.error EngineFailure.notFound) ⟨[(1:ℤ), 2, 3], 10⟩).2
      (some (emptyIndex 32 16)) "Query vector dimension mismatch" (by decide)⟩

/-- Claim C6: the serving boundary maps each failure class of the engine to
exactly the prescribed response: no index loaded to 503, dimension mismatch
to the 400 client error, any engine failure to the 500 internal error, and
an engine success to the 200 payload — never to a different class. -/
theorem failure_response_mapping (normalize : Vec → Vec)
    (engine : EngineIndex → Vec → Int → Except EngineFailure SearchResult)
    (index : Option EngineIndex) (req : SearchRequest) :
    (index = none →
      searchHandlerW normalize engine index req = .error 503 "Index not loaded") ∧
    (∀ idx, index = some idx → req.query_vector.length ≠ DIM →
      searchHandlerW normalize engine index req =
        .error 400 "Query vector dimension mismatch") ∧
    (∀ idx f, index = some idx → req.query_vector.length = DIM →
      engine idx (normalize req.query_vector) req.k = .error f →
      searchHandlerW normalize engine index req = .error 500 "Search failed") ∧
    (∀ idx r, index = some idx → req.query_vector.length = DIM →
      engine idx (normalize req.query_vector) req.k = .ok r →
      searchHandlerW normalize engine index req = .ok r) := by
  refine ⟨?_, ?_, ?_, ?_⟩
  · intro h; subst h; rfl
  · intro idx h hdim; subst h; simp [searchHandlerW, hdim]
  · intro idx f h hdim he; subst h; simp [searchHandlerW, hdim, he]
  · intro idx r h hdim he; subst h; simp [searchHandlerW, hdim, he]

/-- Witness for C6: concrete requests exercising all four branches of the
mapping (no index, wrong dimension, failing engine, succeeding engine). -/
theorem failure_response_mapping_witness :
    searchHandlerW id (fun _ _ _ => Except.error EngineFailure.notFound) none
      ⟨List.replicate 128 (0:ℤ), 10⟩ = .error 503 "Index not loaded" ∧
    searchHandlerW id (fun _ _ _ => Except.error EngineFailure.notFound)
      (some (emptyIndex 32 16)) ⟨[(1:ℤ), 2, 3], 10⟩ =
      .error 400 "Query vector dimension mismatch" ∧
    searchHandlerW id (fun _ _ _ => Except.error EngineFailure.notFound)
      (some (emptyIndex 32 16)) ⟨List.replicate 128 (0:ℤ), 10⟩ =
      .error 500 "Search failed" ∧
    searchHandlerW id (fun _ _ _ => Except.ok ⟨[], []⟩)
      (some (emptyIndex 32 16)) ⟨List.replicate 128 (0:ℤ), 10⟩ =
      .ok ⟨[], []⟩ :=
  ⟨(failure_response_mapping id (fun _ _ _ => Except.error EngineFailure.notFound)
      none ⟨List.replicate 128 (0:ℤ), 10⟩).1 rfl,
    (failure_response_mapping id (fun _ _ _ => Except.error EngineFailure.notFound)
      (some (emptyIndex 32 16)) ⟨[(1:ℤ), 2, 3], 10⟩).2.1 (emptyIndex 32 16) rfl (by decide),
    (failure_response_mapping id (fun _ _ _ => Except.error EngineFailure.notFound)
      (some (emptyIndex 32 16)) ⟨List.replicate 128 (0:ℤ), 10⟩).2.2.1 (emptyIndex 32 16)
      EngineFailure.notFound rfl (by simp [DIM]) rfl,
    (failure_response_mapping id (fun _ _ _ => Except.ok ⟨[], []⟩)
      (some (emptyIndex 32 16)) ⟨List.replicate 128 (0:ℤ), 10⟩).2.2.2 (emptyIndex 32 16)
      ⟨[], []⟩ rfl (by simp [DIM]) rfl⟩

/-- Claim C10: the health-check endpoint never fails: for every service
state it reports status "healthy", with `vectors_indexed` equal to the
index's total count when one is loaded and `0` when none is — so a healthy
answer does not imply an index is available for search. -/
theorem health_check_always_healthy (index : Option EngineIndex) :
    (rootHandler index).status = "healthy" ∧
    (rootHandler index).service = "VectorWise" ∧
    (index = none → (rootHandler index).vectors_indexed = 0) ∧
    (∀ i, index = some i → (rootHandler index).vectors_indexed = i.count) := by
  refine ⟨rfl, rfl, ?_, ?_⟩
  · intro h; subst h; rfl
  · intro i h; subst h; rfl

/-- Witness for C10: with no index loaded the endpoint still answers
healthy, reporting zero vectors. -/
theorem health_check_always_healthy_witness :
    (rootHandler none).status = "healthy" ∧ (rootHandler none).vectors_indexed = 0 :=
  ⟨(health_check_always_healthy none).1, (health_check_always_healthy none).2.2.1 rfl⟩

/-- Stored vector of id `i` (the spec's `VectorStore.get`; out-of-range ids
give the empty vector, the situation section 7 calls `NotFound`). -/
def vecOf (g : EngineIndex) (i : Nat) : Vec := g.vectors.getD i []

/-- Distance from a query to the stored vector of id `i`. -/
def keyDist (g : EngineIndex) (q : Vec) (i : Nat) : ℤ := sqDist q (vecOf g i)

/-- Neighbor ids of node `i` at layer `l` (empty when out of range). -/
def neighborsAt (g : EngineIndex) (i l : Nat) : List Nat :=
  ((g.nodes.getD i ⟨0, []⟩).nbrs).getD l []

/-- Insert an id into a list of ids kept ascending by `key` (the list model
of the bounded priority structure of spec section 9). -/
def insSorted (key : Nat → ℤ) (x : Nat) : List Nat → List Nat
  | [] => [x]
  | y :: ys => if key x ≤ key y then x :: y :: ys else y :: insSorted key x ys

/-- Modelled from the spec: processing one discovered neighbor `e` during
beam search (section 4.3): already-visited ids are skipped; otherwise `e`
is marked visited and, when the kept-result list `w` is not yet full or `e`
improves on the current worst kept result, `e` joins both the candidate
list and the kept results (shrunk back to width `ef`).  State is
(visited, candidates, kept results), the latter two ascending by distance. -/
def scanStep (g : EngineIndex) (q : Vec) (ef : Nat)
    (st : List Nat × List Nat × List Nat) (e : Nat) : List Nat × List Nat × List Nat :=
  let vis := st.1
  let cd := st.2.1
  let w := st.2.2
  if e ∈ vis then st
  else if w.length < ef ∨ keyDist g q e < keyDist g q (w.getLastD e) then
    (e :: vis, insSorted (keyDist g q) e cd, (insSorted (keyDist g q) e w).take ef)
  else (e :: vis, cd, w)

/-- Modelled from the spec: the bounded beam search over one layer
(sections 4.2 step 4 and 4.3): repeatedly take the closest pending
candidate `c`; stop when `c` is strictly worse than the worst kept result
(the standard early-termination condition), otherwise expand the neighbors
of `c`.  Fuel makes the recursion structural; `nodes.length + 1` steps
always suffice because every id enters the candidate list at most once. -/
def beamGo (g : EngineIndex) (q : Vec) (l ef : Nat) :
    Nat → List Nat → List Nat → List Nat → List Nat
  | 0, _, _, w => w
  | fuel + 1, vis, cand, w =>
    match cand with
    | [] => w
    | c :: cs =>
      match w.getLast? with
      | none => w
      | some f =>
        if keyDist g q f < keyDist g q c then w
        else
          let st := (neighborsAt g c l).foldl (scanStep g q ef) (vis, cs, w)
          beamGo g q l ef fuel st.1 st.2.1 st.2.2

/-- Beam search over layer `l` started at entry id `ep`, candidate-list
width `ef`; returns up to `ef` ids ascending by distance to `q`. -/
def searchLayer (g : EngineIndex) (q : Vec) (l ef ep : Nat) : List Nat :=
  beamGo g q l ef (g.nodes.length + 1) [ep] [ep] [ep]

/-- Closest id to the query among a list of ids (none for an empty list). -/
def bestNbr (g : EngineIndex) (q : Vec) : List Nat → Option Nat
  | [] => none
  | n :: ns =>
    match bestNbr g q ns with
    | none => some n
    | some m => if keyDist g q n ≤ keyDist g q m then some n else some m

/-- Modelled from the spec: the single-path greedy walk at one layer
(section 4.2 step 3): while some neighbor of the current node is strictly
closer to the query, move to the closest neighbor. -/
def greedyGo (g : EngineIndex) (q : Vec) (l : Nat) : Nat → Nat → Nat
  | 0, ep => ep
  | fuel + 1, ep =>
    match bestNbr g q (neighborsAt g ep l) with
    | none => ep
    | some m => if keyDist g q m < keyDist g q ep then greedyGo g q l fuel m else ep

/-- The layers `hi, hi-1, ..., lo` (empty when `hi < lo`). -/
def layersDown (hi lo : Nat) : List Nat := (List.range' lo (hi + 1 - lo)).reverse

/-- Modelled from the spec: greedy descent through the upper layers
(section 4.2 step 3, reused by the query path of section 4.3): from layer
`hi` down to layer `lo`, refine the entry id by a greedy walk per layer. -/
def descend (g : EngineIndex) (q : Vec) (hi lo ep : Nat) : Nat :=
  (layersDown hi lo).foldl (fun e l => greedyGo g q l g.nodes.length e) ep

/-- Top layer of the graph (faiss `hnsw.max_level`: the highest layer any
node participates in, 0 for an empty graph). -/
def maxLevel (g : EngineIndex) : Nat := g.nodes.foldl (fun a nd => max a nd.maxLayer) 0

/-- Modelled from the spec: the SearchEngine query (section 4.3, absent
from the repository): greedy descent from the entry point down to layer 1,
then beam search at layer 0 with candidate-list width `max(efSearch, k)`,
returning the `k` closest found ids with their distances, ascending by
distance; on an empty store (no entry point) the result is empty. -/
def engineSearch (g : EngineIndex) (q : Vec) (k : Nat) : List (Nat × ℤ) :=
  match g.entryPoint with
  | none => []
  | some ep =>
    let ep0 := descend g q (maxLevel g) 1 ep
    let w := searchLayer g q 0 (max g.efSearch k) ep0
    (w.take k).map (fun i => (i, keyDist g q i))

/-- Per-layer neighbor cap (spec sections 3 and 4.2: `M` above layer 0,
`2M` at layer 0). -/
def capAt (M l : Nat) : Nat := if l = 0 then 2 * M else M

/-- Ids sorted ascending by `key` (insertion sort). -/
def sortByKey (key : Nat → ℤ) (xs : List Nat) : List Nat := xs.foldr (insSorted key) []

/-- Modelled from the spec: the diversity-aware selection loop (section
4.2 step 5): repeatedly take the closest remaining candidate `c`, accept
it unless it is closer to an already-accepted neighbor than to the new
vector `q` itself, and stop once `cap` neighbors are accepted. -/
def selectGo (g : EngineIndex) (q : Vec) (cap : Nat) : List Nat → List Nat → List Nat
  | [], acc => acc.reverse
  | c :: rest, acc =>
    if cap ≤ acc.length then acc.reverse
    else if acc.all (fun a => decide (¬ sqDist (vecOf g c) (vecOf g a) < sqDist (vecOf g c) q)) then
      selectGo g q cap rest (c :: acc)
    else selectGo g q cap rest acc

/-- Neighbor selection: sort the candidate set by distance to `q`, then run
the diversity-aware loop, keeping at most `cap` ids. -/
def selectNeighbors (g : EngineIndex) (q : Vec) (cap : Nat) (cands : List Nat) : List Nat :=
  selectGo g q cap (sortByKey (keyDist g q) cands) []

/-- Replace node `i` by `f` applied to it (other nodes unchanged). -/
def modifyNode (g : EngineIndex) (i : Nat) (f : Node → Node) : EngineIndex :=
  { g with nodes := g.nodes.set i (f (g.nodes.getD i ⟨0, []⟩)) }

/-- Replace the layer-`l` neighbor list of a node. -/
def setNbrs (nd : Node) (l : Nat) (L : List Nat) : Node :=
  { nd with nbrs := nd.nbrs.set l L }

/-- Modelled from the spec (section 4.2 step 6): a neighbor list that now
exceeds the per-layer cap is pruned back by re-running the same selection
heuristic, centered at the owning node's own vector. -/
def pruneList (g : EngineIndex) (center : Vec) (cap : Nat) (L : List Nat) : List Nat :=
  if cap < L.length then selectNeighbors g center cap L else L

/-- Modelled from the spec (section 4.2 step 6): add the back edge
`n → qid` at layer `l`, pruning `n`'s list if it exceeds the cap. -/
def addBacklink (l qid cap : Nat) (g : EngineIndex) (n : Nat) : EngineIndex :=
  modifyNode g n (fun nd =>
    setNbrs nd l (pruneList g (vecOf g n) cap ((nd.nbrs.getD l []) ++ [qid])))

/-- Modelled from the spec (section 4.2 steps 4-6): link the new node
`qid` at one layer: beam search with width `efConstruction` for a
candidate set, select up to the cap diverse neighbors, install them as
`qid`'s layer-`l` list, add the bidirectional back edges (pruning any
overfull list), and pass the closest candidate down as the next entry. -/
def linkLayer (qid efC : Nat) (st : EngineIndex × Nat) (l : Nat) : EngineIndex × Nat :=
  let g := st.1
  let ep := st.2
  let q := vecOf g qid
  let cands := searchLayer g q l efC ep
  let cap := capAt g.M l
  let sel := selectNeighbors g q cap cands
  let g1 := modifyNode g qid (fun nd => setNbrs nd l sel)
  let g2 := sel.foldl (addBacklink l qid cap) g1
  (g2, cands.headD ep)

/-- Modelled from the spec: insertion of one vector (section 4.2, the
IndexBuilder, absent from the repository).  The level is taken as an
argument — the spec's design notes (section 9) ask for the random level
draw to be injectable.  An empty graph makes the new node the entry point;
otherwise: greedy descent from the top layer down to `level + 1`, then
linking at each layer from `min(level, top)` down to 0, and the entry
point moves to the new node when its level exceeds the old top. -/
def insert (efC : Nat) (g : EngineIndex) (v : Vec) (level : Nat) : EngineIndex :=
  let qid := g.nodes.length
  let g0 : EngineIndex :=
    { g with vectors := g.vectors ++ [v],
             nodes := g.nodes ++ [⟨level, List.replicate (level + 1) []⟩] }
  match g.entryPoint with
  | none => { g0 with entryPoint := some qid }
  | some ep =>
    let top := maxLevel g
    let ep1 := descend g0 v top (level + 1) ep
    let g2 := ((layersDown (min level top) 0).foldl (linkLayer qid efC) (g0, ep1)).1
    if top < level then { g2 with entryPoint := some qid } else g2

/-- Modelled from the spec: offline index construction (src/generate_data.py
builds the index by inserting every vector through faiss): fold `insert`
over the (vector, drawn level) stream, starting from an empty index with
build parameter `M`; `16` is the default query-time `efSearch` the
artifact carries before the service overrides it at load. -/
def buildIndex (M efC : Nat) (items : List (Vec × Nat)) : EngineIndex :=
  items.foldl (fun g it => insert efC g it.1 it.2) (emptyIndex M 16)

/-- Well-formedness of an index: store and graph have the same length, the
entry point exists and is in range exactly when the graph is nonempty, and
every neighbor id of every node is in range. -/
def WFb (g : EngineIndex) : Bool :=
  (g.vectors.length == g.nodes.length) &&
  (match g.entryPoint with
   | none => g.nodes.isEmpty
   | some e => e < g.nodes.length) &&
  g.nodes.all (fun nd => nd.nbrs.all (fun L => L.all (fun j => j < g.nodes.length)))

/-- Propositional form of well-formedness. -/
def WF (g : EngineIndex) : Prop := WFb g = true

/-- One closure step at layer 0: a set of ids together with every layer-0
neighbor of its members. -/
def stepClosure (g : EngineIndex) (S : List Nat) : List Nat :=
  S ++ (S.flatMap (fun i => neighborsAt g i 0)).filter (fun j => decide (j ∉ S))

/-- Ids reachable at layer 0 within `n` steps from a starting set. -/
def reachN (g : EngineIndex) : Nat → List Nat → List Nat
  | 0, S => S
  | n + 1, S => reachN g n (stepClosure g S)

/-- Ids reachable at layer 0 from `s` (graph-size many steps suffice). -/
def reachSet (g : EngineIndex) (s : Nat) : List Nat := reachN g g.nodes.length [s]

/-- Navigability of the base layer: from every node every node is
reachable along layer-0 edges — the property the spec's construction
heuristic is designed to maintain (sections 4.2 and 9). -/
def Navigable (g : EngineIndex) : Prop :=
  ∀ s ∈ List.range g.nodes.length, ∀ t ∈ List.range g.nodes.length, t ∈ reachSet g s

instance (g : EngineIndex) : Decidable (WF g) := by
  unfold WF
  infer_instance

instance (g : EngineIndex) : Decidable (Navigable g) := by
  unfold Navigable
  infer_instance

/-- Response of the stats endpoint, src/api/main.py lines 112-120. -/
structure StatsResponse where
  total_vectors : Nat
  dimension : Nat
  index_type : String
  hnsw_m : Nat
  hnsw_efSearch : Nat
deriving DecidableEq

/-- Shallow embedding of the stats endpoint, src/api/main.py lines
106-122.  Line 119 stores `index.hnsw.max_level` — the top layer of the
graph — under the key `hnsw_m`; the loaded index is an HNSW index, so the
`hasattr` guard of line 118 is taken. -/
def statsHandler (index : Option EngineIndex) : HResult StatsResponse :=
  match index with
  | none => .error 503 "Index not loaded"
  | some i => .ok ⟨i.count, DIM, "IndexHNSWFlat", maxLevel i, i.efSearch⟩

/-- Startup load, src/api/main.py lines 37-54: deserialize the persisted
artifact (persistence format is out of scope, spec section 1, so the
artifact is the deserialized index itself) and set `efSearch := 64`
(line 47). -/
def loadIndex (artifact : EngineIndex) : EngineIndex := { artifact with efSearch := 64 }

/-- Claim C4 is refuted by the code: the stats endpoint reports the value
`index.hnsw.max_level` (the top layer of the graph) under the key
`hnsw_m`.  For an index built with `M = 32` from two vectors drawn at
level 0, the graph's top level is 0, so the endpoint reports
`hnsw_m = 0` while the build parameter `M` of the very same index is 32. -/
theorem stats_reports_max_level_not_M :
    (buildIndex 32 200 [([(1:ℤ)], 0), ([(2:ℤ)], 0)]).M = 32 ∧
    statsHandler (some (buildIndex 32 200 [([(1:ℤ)], 0), ([(2:ℤ)], 0)])) =
      .ok ⟨2, 128, "IndexHNSWFlat", 0, 16⟩ ∧
    (0 : Nat) ≠ (buildIndex 32 200 [([(1:ℤ)], 0), ([(2:ℤ)], 0)]).M := by
  refine ⟨by decide, by decide, by decide⟩

/-- Claim C8: search is deterministic given a fixed graph and fixed
`efSearch`: two service states obtained by loading the same serialized
artifact answer the same query (same vector, same `k`) with identical
result sequences; loading pins `efSearch` to 64. -/
theorem load_search_deterministic (artifact : EngineIndex) (q : Vec) (k : Nat)
    (s1 s2 : EngineIndex) (h1 : s1 = loadIndex artifact) (h2 : s2 = loadIndex artifact) :
    engineSearch s1 q k = engineSearch s2 q k ∧ s1.efSearch = 64 := by
  subst h1; subst h2; exact ⟨rfl, rfl⟩

/-- A concrete five-vector index: one-dimensional vectors 0..4 on a path
graph, all at layer 0, entry at id 0. -/
def gPath : EngineIndex :=
  { M := 2, efSearch := 64,
    vectors := [[(0:ℤ)], [1], [2], [3], [4]],
    nodes := [⟨0, [[1]]⟩, ⟨0, [[0, 2]]⟩, ⟨0, [[1, 3]]⟩, ⟨0, [[2, 4]]⟩, ⟨0, [[3]]⟩],
    entryPoint := some 0 }

/-- Witness for C8: loading the concrete five-vector artifact twice and
searching both loads gives identical results. -/
theorem load_search_deterministic_witness :
    engineSearch (loadIndex gPath) [(2:ℤ)] 3 = engineSearch (loadIndex gPath) [(2:ℤ)] 3 ∧
    (loadIndex gPath).efSearch = 64 :=
  load_search_deterministic gPath [(2:ℤ)] 3 (loadIndex gPath) (loadIndex gPath) rfl rfl

/-- Sum of the squared components of a real vector (the squared L2 norm).
Normalization is about the actual real-valued norm, so this part of the
development works over the real numbers. -/
def sumSq (v : List ℝ) : ℝ := (v.map (fun x => x * x)).sum

/-- Modelled from the spec: `faiss.normalize_L2`, the external in-place
normalization routine both src/generate_data.py and src/api/main.py call:
every component is divided by the vector's Euclidean norm. -/
noncomputable def normalize_L2 (v : List ℝ) : List ℝ :=
  v.map (fun x => x / Real.sqrt (sumSq v))

/-- Query-side preprocessing, src/api/main.py lines 88-91: the incoming
query vector is L2-normalized before `index.search` runs. -/
noncomputable def queryPreprocess (q : List ℝ) : List ℝ := normalize_L2 q

/-- Build-side preprocessing, src/generate_data.py lines 26-29: every
generated vector is L2-normalized before being saved and indexed. -/
noncomputable def buildNormalize (vs : List (List ℝ)) : List (List ℝ) :=
  vs.map normalize_L2

theorem sumSq_cons (a : ℝ) (t : List ℝ) : sumSq (a :: t) = a * a + sumSq t := by
  simp [sumSq]

theorem sumSq_map_mul (v : List ℝ) (c : ℝ) :
    sumSq (v.map (fun x => x * c)) = sumSq v * (c * c) := by
  induction v with
  | nil => simp [sumSq]
  | cons a t ih => simp only [List.map_cons, sumSq_cons, ih]; ring

/-- Claim C5: the serving layer preprocesses every query with exactly the
same normalization `normalize_L2` that the build pipeline applies to every
stored vector, and that shared transformation really is L2 normalization:
it maps any nonzero vector to one of unit squared L2 norm. -/
theorem query_normalized_like_build (q : List ℝ) (vs : List (List ℝ)) :
    queryPreprocess q = normalize_L2 q ∧
    buildNormalize vs = vs.map normalize_L2 ∧
    (0 < sumSq q → sumSq (queryPreprocess q) = 1) := by
  refine ⟨rfl, rfl, ?_⟩
  intro h
  have hS : Real.sqrt (sumSq q) * Real.sqrt (sumSq q) = sumSq q := Real.mul_self_sqrt h.le
  have hrw : queryPreprocess q = q.map (fun x => x * (Real.sqrt (sumSq q))⁻¹) := by
    simp [queryPreprocess, normalize_L2, div_eq_mul_inv]
  rw [hrw, sumSq_map_mul, ← mul_inv, hS, mul_inv_cancel₀ (ne_of_gt h)]

/-- Witness for C5: the vector (3, 4) has squared norm 25; its shared
normalization (3/5, 4/5) has unit squared norm. -/
theorem query_normalized_like_build_witness :
    (0:ℝ) < sumSq [(3:ℝ), 4] ∧ sumSq (queryPreprocess [(3:ℝ), 4]) = 1 :=
  ⟨by norm_num [sumSq], (query_normalized_like_build [(3:ℝ), 4] []).2.2 (by norm_num [sumSq])⟩

theorem getD_cons_succ' {α : Type} (x : α) (t : List α) (n : Nat) (d : α) :
    (x :: t).getD (n + 1) d = t.getD n d := by
  simp [List.getD]

theorem getD_mem_of_lt {α : Type} (d : α) (L : List α) :
    ∀ i, i < L.length → L.getD i d ∈ L := by
  induction L with
  | nil => intro i h; simp at h
  | cons x t ih =>
    intro i h
    cases i with
    | zero => simp [List.getD]
    | succ n =>
      rw [getD_cons_succ']
      exact List.mem_cons_of_mem _ (ih n (by simpa using h))

theorem getD_oob {α : Type} (d : α) (L : List α) :
    ∀ i, L.length ≤ i → L.getD i d = d := by
  induction L with
  | nil => intro i _; simp [List.getD]
  | cons x t ih =>
    intro i h
    cases i with
    | zero => simp at h
    | succ n => rw [getD_cons_succ']; exact ih n (by simpa using h)

theorem getD_set_eq {α : Type} (d a : α) (L : List α) :
    ∀ i, i < L.length → (L.set i a).getD i d = a := by
  induction L with
  | nil => intro i h; simp at h
  | cons x t ih =>
    intro i h
    cases i with
    | zero => simp [List.getD]
    | succ n =>
      simp only [List.set]
      rw [getD_cons_succ']
      exact ih n (by simpa using h)

theorem getD_set_ne {α : Type} (d a : α) (L : List α) :
    ∀ i j, i ≠ j → (L.set i a).getD j d = L.getD j d := by
  induction L with
  | nil => intro i j _; simp [List.set]
  | cons x t ih =>
    intro i j hne
    cases i with
    | zero =>
      cases j with
      | zero => exact absurd rfl hne
      | succ m => simp only [List.set]; rw [getD_cons_succ', getD_cons_succ']
    | succ n =>
      cases j with
      | zero => simp [List.set, List.getD]
      | succ m =>
        simp only [List.set]
        rw [getD_cons_succ', getD_cons_succ']
        exact ih n m (by omega)

theorem getD_replicate_nil (n l : Nat) :
    ((List.replicate n ([] : List Nat)).getD l []) = [] := by
  induction n generalizing l with
  | zero => simp [List.getD]
  | succ m ih =>
    cases l with
    | zero => simp [List.replicate, List.getD]
    | succ p => simp only [List.replicate]; rw [getD_cons_succ']; exact ih p

/-- The spec's per-node cap invariant (sections 3 and 8): every per-layer
neighbor list of the node respects the configured cap. -/
def NodeCapOK (M : Nat) (nd : Node) : Prop :=
  ∀ l, (nd.nbrs.getD l []).length ≤ capAt M l

/-- The spec's neighbor-cap invariant over the whole graph. -/
def CapOK (g : EngineIndex) : Prop := ∀ nd ∈ g.nodes, NodeCapOK g.M nd

theorem selectGo_length (g : EngineIndex) (q : Vec) (cap : Nat) :
    ∀ (l acc : List Nat), acc.length ≤ cap →
      (selectGo g q cap l acc).length ≤ cap := by
  intro l
  induction l with
  | nil => intro acc h; simpa [selectGo] using h
  | cons c rest ih =>
    intro acc h
    by_cases h1 : cap ≤ acc.length
    · simpa [selectGo, h1] using h
    · by_cases h2 : acc.all
        (fun a => decide (¬ sqDist (vecOf g c) (vecOf g a) < sqDist (vecOf g c) q))
      · simp only [selectGo, if_neg h1, if_pos h2]
        exact ih (c :: acc) (by simp only [List.length_cons]; omega)
      · simp only [selectGo, if_neg h1, if_neg h2]
        exact ih acc h

theorem selectNeighbors_length (g : EngineIndex) (q : Vec) (cap : Nat)
    (cands : List Nat) : (selectNeighbors g q cap cands).length ≤ cap :=
  selectGo_length g q cap _ [] (by simp)

theorem pruneList_length (g : EngineIndex) (center : Vec) (cap : Nat)
    (L : List Nat) (_h : L.length ≤ cap + 1) :
    (pruneList g center cap L).length ≤ cap := by
  unfold pruneList
  by_cases h1 : cap < L.length
  · simpa [h1] using selectNeighbors_length g center cap L
  · simp only [if_neg h1]; omega

theorem NodeCapOK.setNbrs {M : Nat} {nd : Node} (hnd : NodeCapOK M nd)
    {l : Nat} {L : List Nat} (hL : L.length ≤ capAt M l) :
    NodeCapOK M (setNbrs nd l L) := by
  intro l'
  unfold VectorWise.setNbrs
  by_cases hlt : l < nd.nbrs.length
  · by_cases he : l = l'
    · subst he; rw [getD_set_eq _ _ _ _ hlt]; exact hL
    · rw [getD_set_ne _ _ _ _ _ he]; exact hnd l'
  · by_cases he : l = l'
    · subst he
      by_cases hl' : l < (nd.nbrs.set l L).length
      · simp at hl'; omega
      · rw [getD_oob _ _ _ (by simp; omega)]; simp
    · rw [getD_set_ne _ _ _ _ _ he]; exact hnd l'

theorem capOK_getD {g : EngineIndex} (hg : CapOK g) (i : Nat) :
    NodeCapOK g.M (g.nodes.getD i ⟨0, []⟩) := by
  by_cases h : i < g.nodes.length
  · exact hg _ (getD_mem_of_lt _ _ _ h)
  · rw [getD_oob _ _ _ (by omega)]
    intro l; simp [List.getD, capAt]

theorem modifyNode_capOK {g : EngineIndex} {i : Nat} {f : Node → Node}
    (hf : ∀ nd, NodeCapOK g.M nd → NodeCapOK g.M (f nd)) (hg : CapOK g) :
    CapOK (modifyNode g i f) := by
  intro nd hnd
  rcases List.mem_or_eq_of_mem_set hnd with h | h
  · exact hg nd h
  · subst h
    exact hf _ (capOK_getD hg i)

theorem modifyNode_M (g : EngineIndex) (i : Nat) (f : Node → Node) :
    (modifyNode g i f).M = g.M := rfl

theorem addBacklink_capOK {g : EngineIndex} {l qid : Nat} {n : Nat}
    (hg : CapOK g) : CapOK (addBacklink l qid (capAt g.M l) g n) := by
  unfold addBacklink
  refine modifyNode_capOK (fun nd hnd => ?_) hg
  refine hnd.setNbrs (pruneList_length _ _ _ _ ?_)
  have := hnd l
  simp only [List.length_append, List.length_cons, List.length_nil]
  omega

theorem foldl_addBacklink_capOK (l qid M0 : Nat) :
    ∀ (sel : List Nat) (g : EngineIndex), CapOK g → g.M = M0 →
      CapOK (sel.foldl (addBacklink l qid (capAt M0 l)) g) ∧
      (sel.foldl (addBacklink l qid (capAt M0 l)) g).M = M0 := by
  intro sel
  induction sel with
  | nil => intro g hg hM; exact ⟨hg, hM⟩
  | cons n rest ih =>
    intro g hg hM
    simp only [List.foldl_cons]
    subst hM
    exact ih _ (addBacklink_capOK hg) rfl

theorem linkLayer_capOK (qid efC : Nat) (st : EngineIndex × Nat) (l : Nat)
    (hg : CapOK st.1) :
    CapOK (linkLayer qid efC st l).1 ∧ (linkLayer qid efC st l).1.M = st.1.M := by
  simp only [linkLayer]
  have hsel : CapOK (modifyNode st.1 qid
      (fun nd => setNbrs nd l (selectNeighbors st.1 (vecOf st.1 qid) (capAt st.1.M l)
        (searchLayer st.1 (vecOf st.1 qid) l efC st.2)))) :=
    modifyNode_capOK (fun nd hnd => hnd.setNbrs (selectNeighbors_length _ _ _ _)) hg
  exact foldl_addBacklink_capOK l qid st.1.M
    (selectNeighbors st.1 (vecOf st.1 qid) (capAt st.1.M l)
      (searchLayer st.1 (vecOf st.1 qid) l efC st.2))
    _ hsel rfl

theorem foldl_linkLayer_capOK (qid efC : Nat) :
    ∀ (ls : List Nat) (st : EngineIndex × Nat), CapOK st.1 →
      CapOK ((ls.foldl (linkLayer qid efC) st).1) ∧
      ((ls.foldl (linkLayer qid efC) st).1).M = st.1.M := by
  intro ls
  induction ls with
  | nil => intro st hg; exact ⟨hg, rfl⟩
  | cons l rest ih =>
    intro st hg
    simp only [List.foldl_cons]
    have h := linkLayer_capOK qid efC st l hg
    have h2 := ih (linkLayer qid efC st l) h.1
    exact ⟨h2.1, h2.2.trans h.2⟩

theorem capOK_congr {g1 g2 : EngineIndex} (hn : g1.nodes = g2.nodes)
    (hM : g1.M = g2.M) (h : CapOK g1) : CapOK g2 := by
  intro nd hnd
  rw [← hn] at hnd
  have h2 := h nd hnd
  rwa [hM] at h2

theorem insert_capOK {g : EngineIndex} (efC : Nat) (v : Vec) (level : Nat)
    (hg : CapOK g) : CapOK (insert efC g v level) ∧ (insert efC g v level).M = g.M := by
  have h0 : CapOK { g with vectors := g.vectors ++ [v],
                           nodes := g.nodes ++ [⟨level, List.replicate (level + 1) []⟩] } := by
    intro nd hnd
    rcases List.mem_append.1 hnd with h | h
    · exact hg nd h
    · intro l
      rcases List.mem_singleton.1 h with rfl
      simp only [getD_replicate_nil, List.length_nil]
      exact Nat.zero_le _
  cases he : g.entryPoint with
  | none =>
    simp only [insert, he]
    refine ⟨capOK_congr rfl rfl h0, ?_⟩
    trivial
  | some ep =>
    simp only [insert, he]
    have h0' : CapOK { M := g.M, efSearch := g.efSearch, vectors := g.vectors ++ [v],
                       nodes := g.nodes ++ [⟨level, List.replicate (level + 1) []⟩],
                       entryPoint := some ep } := capOK_congr rfl rfl h0
    have h2 := foldl_linkLayer_capOK g.nodes.length efC
      (layersDown (min level (maxLevel g)) 0)
      ({ M := g.M, efSearch := g.efSearch, vectors := g.vectors ++ [v],
         nodes := g.nodes ++ [⟨level, List.replicate (level + 1) []⟩],
         entryPoint := some ep },
        descend { M := g.M, efSearch := g.efSearch, vectors := g.vectors ++ [v],
                  nodes := g.nodes ++ [⟨level, List.replicate (level + 1) []⟩],
                  entryPoint := some ep } v (maxLevel g) (level + 1) ep) h0'
    by_cases htop : maxLevel g < level
    · rw [if_pos htop]
      exact ⟨capOK_congr rfl rfl h2.1, h2.2⟩
    · rw [if_neg htop]
      exact h2

theorem buildIndex_capOK (M efC : Nat) :
    ∀ (items : List (Vec × Nat)) (g : EngineIndex), CapOK g → g.M = M →
      CapOK (items.foldl (fun g it => insert efC g it.1 it.2) g) ∧
      (items.foldl (fun g it => insert efC g it.1 it.2) g).M = M := by
  intro items
  induction items with
  | nil => intro g hg hM; exact ⟨hg, hM⟩
  | cons it rest ih =>
    intro g hg hM
    simp only [List.foldl_cons]
    have h := insert_capOK efC it.1 it.2 hg
    exact ih _ h.1 (h.2.trans hM)

/-- Claim C7: after every insertion sequence into an initially empty graph
(arbitrary vectors and arbitrary drawn levels), every node's neighbor list
at every layer `l` respects the configured cap: at most `2M` at layer 0
and at most `M` above it. -/
theorem neighbor_cap_invariant (M efC : Nat) (items : List (Vec × Nat)) :
    ∀ nd ∈ (buildIndex M efC items).nodes, ∀ l,
      (nd.nbrs.getD l []).length ≤ capAt M l := by
  have h := buildIndex_capOK M efC items (emptyIndex M 16)
    (fun nd hnd => by simp [emptyIndex] at hnd) rfl
  intro nd hnd l
  have := h.1 nd hnd l
  rwa [h.2] at this

/-- Witness for C7: in a concrete three-insertion build with M = 2 the
first node's layer-0 list respects the cap 2M = 4. -/
theorem neighbor_cap_invariant_witness :
    ((((buildIndex 2 4 [([(1:ℤ)], 0), ([(2:ℤ)], 1), ([(3:ℤ)], 0)]).nodes.getD 0
        ⟨0, []⟩).nbrs.getD 0 []).length) ≤ capAt 2 0 :=
  neighbor_cap_invariant 2 4 [([(1:ℤ)], 0), ([(2:ℤ)], 1), ([(3:ℤ)], 0)] _ (by decide) 0

theorem mem_insSorted (key : Nat → ℤ) (x a : Nat) :
    ∀ (l : List Nat), a ∈ insSorted key x l ↔ a = x ∨ a ∈ l := by
  intro l
  induction l with
  | nil => simp [insSorted]
  | cons y ys ih =>
    by_cases h : key x ≤ key y
    · simp [insSorted, h]
    · simp only [insSorted, if_neg h, List.mem_cons, ih]
      tauto

theorem length_insSorted (key : Nat → ℤ) (x : Nat) :
    ∀ (l : List Nat), (insSorted key x l).length = l.length + 1 := by
  intro l
  induction l with
  | nil => rfl
  | cons y ys ih => by_cases h : key x ≤ key y <;> simp [insSorted, h, ih]

theorem sorted_insSorted (key : Nat → ℤ) (x : Nat) :
    ∀ (l : List Nat), l.Sorted (fun a b => key a ≤ key b) →
      (insSorted key x l).Sorted (fun a b => key a ≤ key b) := by
  intro l
  induction l with
  | nil => intro _; simp [insSorted]
  | cons y ys ih =>
    intro hs
    rw [List.sorted_cons] at hs
    by_cases h : key x ≤ key y
    · simp only [insSorted, if_pos h]
      rw [List.sorted_cons]
      constructor
      · intro b hb
        rcases List.mem_cons.1 hb with rfl | hb2
        · exact h
        · exact le_trans h (hs.1 b hb2)
      · rw [List.sorted_cons]; exact hs
    · simp only [insSorted, if_neg h]
      rw [List.sorted_cons]
      refine ⟨?_, ih hs.2⟩
      intro b hb
      rcases (mem_insSorted key x b ys).1 hb with rfl | hb2
      · exact le_of_not_le h
      · exact hs.1 b hb2

theorem nodup_insSorted (key : Nat → ℤ) (x : Nat) :
    ∀ (l : List Nat), x ∉ l → l.Nodup → (insSorted key x l).Nodup := by
  intro l
  induction l with
  | nil => intro _ _; simp [insSorted]
  | cons y ys ih =>
    intro hx hnd
    rw [List.nodup_cons] at hnd
    by_cases h : key x ≤ key y
    · simp only [insSorted, if_pos h]
      rw [List.nodup_cons]
      exact ⟨hx, List.nodup_cons.2 hnd⟩
    · simp only [insSorted, if_neg h]
      rw [List.nodup_cons]
      have hx' : x ∉ ys := fun hh => hx (List.mem_cons_of_mem _ hh)
      have hxy : x ≠ y := fun hh => hx (hh ▸ List.mem_cons_self _ _)
      refine ⟨?_, ih hx' hnd.2⟩
      intro hy
      rcases (mem_insSorted key x y ys).1 hy with h1 | h1
      · exact hxy h1.symm
      · exact hnd.1 h1

theorem length_le_of_nodup_lt {xs : List Nat} {N : Nat} (h1 : xs.Nodup)
    (h2 : ∀ x ∈ xs, x < N) : xs.length ≤ N := by
  have hs : xs ⊆ List.range N := fun x hx => List.mem_range.2 (h2 x hx)
  simpa using (List.subperm_of_subset h1 hs).length_le

theorem mem_of_subset_of_length {w vis : List Nat} (hsub : w ⊆ vis)
    (hw : w.Nodup) (_hv : vis.Nodup) (hlen : vis.length ≤ w.length) :
    ∀ x ∈ vis, x ∈ w := by
  have hp := (List.subperm_of_subset hw hsub).perm_of_length_le hlen
  intro x hx
  exact hp.mem_iff.2 hx

theorem mem_of_getLast?_eq {α : Type} :
    ∀ (l : List α) (f : α), l.getLast? = some f → f ∈ l := by
  intro l
  induction l with
  | nil => intro f h; simp at h
  | cons x t ih =>
    intro f h
    cases t with
    | nil =>
      simp only [List.getLast?_singleton, Option.some.injEq] at h
      subst h
      exact List.mem_cons_self _ _
    | cons y s =>
      rw [List.getLast?_cons_cons] at h
      exact List.mem_cons_of_mem _ (ih f h)

theorem sorted_le_getLast (key : Nat → ℤ) :
    ∀ (l : List Nat) (f : Nat), l.Sorted (fun a b => key a ≤ key b) →
      l.getLast? = some f → ∀ x ∈ l, key x ≤ key f := by
  intro l
  induction l with
  | nil => intro f _ h; simp at h
  | cons a t ih =>
    intro f hs hl x hx
    cases t with
    | nil =>
      simp only [List.getLast?_singleton, Option.some.injEq] at hl
      subst hl
      rcases List.mem_singleton.1 hx with rfl
      exact le_refl _
    | cons b s =>
      rw [List.getLast?_cons_cons] at hl
      have hf : f ∈ b :: s := mem_of_getLast?_eq _ _ hl
      rcases List.mem_cons.1 hx with rfl | hx2
      · exact (List.rel_of_sorted_cons hs) f hf
      · exact ih f hs.of_cons hl x hx2

theorem WF.store_len {g : EngineIndex} (h : WF g) :
    g.vectors.length = g.nodes.length := by
  simp only [WF, WFb, Bool.and_eq_true, beq_iff_eq] at h
  exact h.1.1

theorem WF.entry_none {g : EngineIndex} (h : WF g) (he : g.entryPoint = none) :
    g.nodes = [] := by
  simp only [WF, WFb, Bool.and_eq_true, beq_iff_eq] at h
  have h2 := h.1.2
  rw [he] at h2
  cases hn : g.nodes with
  | nil => rfl
  | cons a t => rw [hn] at h2; simp [List.isEmpty] at h2

theorem WF.entry_lt {g : EngineIndex} (h : WF g) {e : Nat}
    (he : g.entryPoint = some e) : e < g.nodes.length := by
  simp only [WF, WFb, Bool.and_eq_true, beq_iff_eq] at h
  have h2 := h.1.2
  rw [he] at h2
  simpa using h2

theorem WF.nbr_lt {g : EngineIndex} (h : WF g) {i l j : Nat}
    (hi : i < g.nodes.length) (hj : j ∈ neighborsAt g i l) :
    j < g.nodes.length := by
  simp only [WF, WFb, Bool.and_eq_true, beq_iff_eq, List.all_eq_true,
    decide_eq_true_eq] at h
  have hmem : g.nodes.getD i ⟨0, []⟩ ∈ g.nodes := getD_mem_of_lt _ _ _ hi
  have h3 := h.2 _ hmem
  unfold neighborsAt at hj
  by_cases hl : l < (g.nodes.getD i ⟨0, []⟩).nbrs.length
  · exact h3 _ (getD_mem_of_lt _ _ _ hl) j hj
  · rw [getD_oob _ _ _ (by omega)] at hj
    simp at hj

/-- A set of ids closed under layer-0 adjacency. -/
def ClosedUnder (g : EngineIndex) (V : List Nat) : Prop :=
  ∀ i ∈ V, ∀ j ∈ neighborsAt g i 0, j ∈ V

theorem stepClosure_subset {g : EngineIndex} {S V : List Nat} (hS : S ⊆ V)
    (hV : ClosedUnder g V) : stepClosure g S ⊆ V := by
  intro x hx
  unfold stepClosure at hx
  rcases List.mem_append.1 hx with h | h
  · exact hS h
  · rcases List.mem_filter.1 h with ⟨h1, _⟩
    rcases List.mem_flatMap.1 h1 with ⟨i, hi, hji⟩
    exact hV i (hS hi) x hji

theorem reachN_subset {g : EngineIndex} {V : List Nat} (hV : ClosedUnder g V) :
    ∀ (n : Nat) (S : List Nat), S ⊆ V → reachN g n S ⊆ V := by
  intro n
  induction n with
  | zero => intro S hS; exact hS
  | succ m ih =>
    intro S hS
    simp only [reachN]
    exact ih _ (stepClosure_subset hS hV)

theorem reachSet_subset {g : EngineIndex} {V : List Nat} {s : Nat}
    (hs : s ∈ V) (hV : ClosedUnder g V) : reachSet g s ⊆ V :=
  reachN_subset hV _ _ (fun x hx => by rcases List.mem_singleton.1 hx with rfl; exact hs)

theorem bestNbr_mem (g : EngineIndex) (q : Vec) :
    ∀ (l : List Nat) (m : Nat), bestNbr g q l = some m → m ∈ l := by
  intro l
  induction l with
  | nil => intro m h; simp [bestNbr] at h
  | cons n ns ih =>
    intro m h
    simp only [bestNbr] at h
    cases hb : bestNbr g q ns with
    | none =>
      rw [hb] at h
      injection h with h2
      subst h2
      exact List.mem_cons_self _ _
    | some m2 =>
      rw [hb] at h
      dsimp only at h
      by_cases hc : keyDist g q n ≤ keyDist g q m2
      · rw [if_pos hc] at h
        injection h with h2
        subst h2
        exact List.mem_cons_self _ _
      · rw [if_neg hc] at h
        injection h with h2
        subst h2
        exact List.mem_cons_of_mem _ (ih m2 hb)

theorem greedyGo_lt {g : EngineIndex} (hWF : WF g) (q : Vec) (l : Nat) :
    ∀ (fuel ep : Nat), ep < g.nodes.length →
      greedyGo g q l fuel ep < g.nodes.length := by
  intro fuel
  induction fuel with
  | zero => intro ep h; simpa [greedyGo] using h
  | succ m ih =>
    intro ep h
    simp only [greedyGo]
    cases hb : bestNbr g q (neighborsAt g ep l) with
    | none => simpa [hb] using h
    | some mm =>
      simp only [hb]
      by_cases hc : keyDist g q mm < keyDist g q ep
      · rw [if_pos hc]
        exact ih mm (hWF.nbr_lt h (bestNbr_mem _ _ _ _ hb))
      · rw [if_neg hc]
        exact h

theorem foldl_greedy_lt {g : EngineIndex} (hWF : WF g) (q : Vec) :
    ∀ (ls : List Nat) (ep : Nat), ep < g.nodes.length →
      (ls.foldl (fun e l => greedyGo g q l g.nodes.length e) ep) < g.nodes.length := by
  intro ls
  induction ls with
  | nil => intro ep h; exact h
  | cons l rest ih =>
    intro ep h
    exact ih _ (greedyGo_lt hWF q l _ _ h)

theorem descend_lt {g : EngineIndex} (hWF : WF g) (q : Vec) (hi lo ep : Nat)
    (h : ep < g.nodes.length) : descend g q hi lo ep < g.nodes.length :=
  foldl_greedy_lt hWF q _ ep h

/-- State invariant of the layer-0 beam search: the state is (visited,
candidates, kept results); visited ids are distinct and in range, the
candidate and result lists are distinct subsets of the visited set kept
ascending by distance, and the result list holds exactly
`min ef |visited|` ids. -/
structure Basic (g : EngineIndex) (q : Vec) (ef : Nat)
    (st : List Nat × List Nat × List Nat) : Prop where
  visNd : st.1.Nodup
  visLt : ∀ x ∈ st.1, x < g.nodes.length
  cdSub : st.2.1 ⊆ st.1
  cdNd : st.2.1.Nodup
  cdSorted : st.2.1.Sorted (fun a b => keyDist g q a ≤ keyDist g q b)
  wSub : st.2.2 ⊆ st.1
  wNd : st.2.2.Nodup
  wSorted : st.2.2.Sorted (fun a b => keyDist g q a ≤ keyDist g q b)
  wLen : st.2.2.length = min ef st.1.length

theorem scanStep_basic {g : EngineIndex} {q : Vec} {ef : Nat}
    {st : List Nat × List Nat × List Nat} (hb : Basic g q ef st)
    {e : Nat} (he : e < g.nodes.length) :
    Basic g q ef (scanStep g q ef st e) ∧
    st.1 ⊆ (scanStep g q ef st e).1 ∧
    st.1.length ≤ (scanStep g q ef st e).1.length ∧
    st.2.1 ⊆ (scanStep g q ef st e).2.1 ∧
    (∀ x ∈ (scanStep g q ef st e).1, x ∈ st.1 ∨ x = e) ∧
    e ∈ (scanStep g q ef st e).1 ∧
    (e ∈ st.1 ∨ e ∈ (scanStep g q ef st e).2.1 ∨
      ef ≤ (scanStep g q ef st e).1.length) ∧
    (scanStep g q ef st e).2.1.length +
        (g.nodes.length - (scanStep g q ef st e).1.length)
      ≤ st.2.1.length + (g.nodes.length - st.1.length) := by
  obtain ⟨vis, cd, w⟩ := st
  by_cases h1 : e ∈ vis
  · have hstep : scanStep g q ef (vis, cd, w) e = (vis, cd, w) := by
      simp only [scanStep]
      rw [if_pos h1]
    rw [hstep]
    exact ⟨hb, fun x h => h, le_refl _, fun x h => h, fun x h => Or.inl h, h1,
      Or.inl h1, le_refl _⟩
  · have hvisN : vis.length < g.nodes.length := by
      have h2 : (e :: vis).Nodup := List.nodup_cons.2 ⟨h1, hb.visNd⟩
      have h3 : ∀ x ∈ e :: vis, x < g.nodes.length := by
        intro x hx
        rcases List.mem_cons.1 hx with rfl | hx2
        · exact he
        · exact hb.visLt x hx2
      have h4 := length_le_of_nodup_lt h2 h3
      simp only [List.length_cons] at h4
      omega
    by_cases h2 : w.length < ef ∨ keyDist g q e < keyDist g q (w.getLastD e)
    · have hstep : scanStep g q ef (vis, cd, w) e =
          (e :: vis, insSorted (keyDist g q) e cd,
            (insSorted (keyDist g q) e w).take ef) := by
        simp only [scanStep]
        rw [if_neg h1, if_pos h2]
      rw [hstep]
      have hecd : e ∉ cd := fun hh => h1 (hb.cdSub hh)
      have hew : e ∉ w := fun hh => h1 (hb.wSub hh)
      have hwlen : w.length = min ef vis.length := hb.wLen
      refine ⟨⟨?_, ?_, ?_, ?_, ?_, ?_, ?_, ?_, ?_⟩, ?_, ?_, ?_, ?_, ?_, ?_, ?_⟩
      · exact List.nodup_cons.2 ⟨h1, hb.visNd⟩
      · intro x hx
        rcases List.mem_cons.1 hx with rfl | hx2
        · exact he
        · exact hb.visLt x hx2
      · intro x hx
        rcases (mem_insSorted _ _ _ _).1 hx with rfl | hx2
        · exact List.mem_cons_self _ _
        · exact List.mem_cons_of_mem _ (hb.cdSub hx2)
      · exact nodup_insSorted _ _ _ hecd hb.cdNd
      · exact sorted_insSorted _ _ _ hb.cdSorted
      · intro x hx
        have hx2 := List.take_subset _ _ hx
        rcases (mem_insSorted _ _ _ _).1 hx2 with rfl | hx3
        · exact List.mem_cons_self _ _
        · exact List.mem_cons_of_mem _ (hb.wSub hx3)
      · exact (List.take_sublist _ _).nodup (nodup_insSorted _ _ _ hew hb.wNd)
      · exact List.Pairwise.sublist (List.take_sublist _ _)
          (sorted_insSorted _ _ _ hb.wSorted)
      · simp only [List.length_take, length_insSorted, List.length_cons]
        omega
      · exact fun x hx => List.mem_cons_of_mem _ hx
      · simp only [List.length_cons]; omega
      · exact fun x hx => (mem_insSorted _ _ _ _).2 (Or.inr hx)
      · intro x hx
        rcases List.mem_cons.1 hx with rfl | hx2
        · exact Or.inr rfl
        · exact Or.inl hx2
      · exact List.mem_cons_self _ _
      · exact Or.inr (Or.inl ((mem_insSorted _ _ _ _).2 (Or.inl rfl)))
      · simp only [length_insSorted, List.length_cons]
        omega
    · have hstep : scanStep g q ef (vis, cd, w) e = (e :: vis, cd, w) := by
        simp only [scanStep]
        rw [if_neg h1, if_neg h2]
      rw [hstep]
      have hwfull : ef ≤ w.length := by
        rcases Nat.lt_or_ge w.length ef with h3 | h3
        · exact absurd (Or.inl h3) h2
        · exact h3
      have hwlen : w.length = min ef vis.length := hb.wLen
      refine ⟨⟨?_, ?_, ?_, ?_, ?_, ?_, ?_, ?_, ?_⟩, ?_, ?_, ?_, ?_, ?_, ?_, ?_⟩
      · exact List.nodup_cons.2 ⟨h1, hb.visNd⟩
      · intro x hx
        rcases List.mem_cons.1 hx with rfl | hx2
        · exact he
        · exact hb.visLt x hx2
      · exact fun x hx => List.mem_cons_of_mem _ (hb.cdSub hx)
      · exact hb.cdNd
      · exact hb.cdSorted
      · exact fun x hx => List.mem_cons_of_mem _ (hb.wSub hx)
      · exact hb.wNd
      · exact hb.wSorted
      · simp only [List.length_cons]; omega
      · exact fun x hx => List.mem_cons_of_mem _ hx
      · simp only [List.length_cons]; omega
      · exact fun x hx => hx
      · intro x hx
        rcases List.mem_cons.1 hx with rfl | hx2
        · exact Or.inr rfl
        · exact Or.inl hx2
      · exact List.mem_cons_self _ _
      · refine Or.inr (Or.inr ?_)
        simp only [List.length_cons]
        omega
      · simp only [List.length_cons]; omega

theorem scanFold_basic {g : EngineIndex} {q : Vec} {ef : Nat} :
    ∀ (ns : List Nat) (st : List Nat × List Nat × List Nat),
      Basic g q ef st → (∀ e ∈ ns, e < g.nodes.length) →
      Basic g q ef (ns.foldl (scanStep g q ef) st) ∧
      st.1 ⊆ (ns.foldl (scanStep g q ef) st).1 ∧
      st.1.length ≤ (ns.foldl (scanStep g q ef) st).1.length ∧
      st.2.1 ⊆ (ns.foldl (scanStep g q ef) st).2.1 ∧
      (∀ x ∈ (ns.foldl (scanStep g q ef) st).1, x ∈ st.1 ∨ x ∈ ns) ∧
      (∀ e ∈ ns, e ∈ (ns.foldl (scanStep g q ef) st).1) ∧
      (ef ≤ (ns.foldl (scanStep g q ef) st).1.length ∨
        ∀ e ∈ ns, e ∈ st.1 ∨ e ∈ (ns.foldl (scanStep g q ef) st).2.1) ∧
      (ns.foldl (scanStep g q ef) st).2.1.length +
          (g.nodes.length - (ns.foldl (scanStep g q ef) st).1.length)
        ≤ st.2.1.length + (g.nodes.length - st.1.length) := by
  intro ns
  induction ns with
  | nil =>
    intro st hb _
    exact ⟨hb, fun x h => h, le_refl _, fun x h => h, fun x h => Or.inl h,
      by simp, Or.inr (by simp), le_refl _⟩
  | cons e rest ih =>
    intro st hb hlt
    simp only [List.foldl_cons]
    have h1 := scanStep_basic hb (hlt e (List.mem_cons_self _ _))
    have h2 := ih (scanStep g q ef st e) h1.1
      (fun x hx => hlt x (List.mem_cons_of_mem _ hx))
    obtain ⟨b1, s1, l1, c1, n1, e1, p1, m1⟩ := h1
    obtain ⟨b2, s2, l2, c2, n2, i2, p2, m2⟩ := h2
    refine ⟨b2, fun x hx => s2 (s1 hx), le_trans l1 l2,
      fun x hx => c2 (c1 hx), ?_, ?_, ?_, le_trans m2 m1⟩
    · intro x hx
      rcases n2 x hx with hx1 | hx1
      · rcases n1 x hx1 with hx2 | rfl
        · exact Or.inl hx2
        · exact Or.inr (List.mem_cons_self _ _)
      · exact Or.inr (List.mem_cons_of_mem _ hx1)
    · intro x hx
      rcases List.mem_cons.1 hx with rfl | hx1
      · exact s2 e1
      · exact i2 x hx1
    · rcases p2 with hfull | hpt
      · exact Or.inl hfull
      · rcases p1 with hin | hcd | hfull
        · refine Or.inr ?_
          intro x hx
          rcases List.mem_cons.1 hx with rfl | hx1
          · exact Or.inl hin
          · rcases hpt x hx1 with h3 | h3
            · rcases n1 x h3 with h4 | rfl
              · exact Or.inl h4
              · exact Or.inl hin
            · exact Or.inr h3
        · refine Or.inr ?_
          intro x hx
          rcases List.mem_cons.1 hx with rfl | hx1
          · exact Or.inr (c2 hcd)
          · rcases hpt x hx1 with h3 | h3
            · rcases n1 x h3 with h4 | rfl
              · exact Or.inl h4
              · exact Or.inr (c2 hcd)
            · exact Or.inr h3
        · exact Or.inl (le_trans hfull l2)

theorem beamGo_post {g : EngineIndex} {q : Vec} {ef : Nat} (hWF : WF g)
    (hNav : Navigable g) (hef : 1 ≤ ef) :
    ∀ (fuel : Nat) (vis cd w : List Nat),
      Basic g q ef (vis, cd, w) → vis ≠ [] →
      (ef ≤ vis.length ∨ ∀ i ∈ vis, i ∈ cd ∨ ∀ j ∈ neighborsAt g i 0, j ∈ vis) →
      cd.length + (g.nodes.length - vis.length) < fuel →
      (beamGo g q 0 ef fuel vis cd w).length = min ef g.nodes.length ∧
      (beamGo g q 0 ef fuel vis cd w).Sorted
        (fun a b => keyDist g q a ≤ keyDist g q b) := by
  intro fuel
  induction fuel with
  | zero => intro vis cd w _ _ _ hm; omega
  | succ m ih =>
    intro vis cd w hb hne hcl hm
    cases cd with
    | nil =>
      have heq : beamGo g q 0 ef (m + 1) vis [] w = w := rfl
      rw [heq]
      refine ⟨?_, hb.wSorted⟩
      have hwlen : w.length = min ef vis.length := hb.wLen
      have hvisle : vis.length ≤ g.nodes.length :=
        length_le_of_nodup_lt hb.visNd hb.visLt
      rcases hcl with hfull | hclosed
      · omega
      · have hcu : ClosedUnder g vis := by
          intro i hi j hj
          rcases hclosed i hi with h3 | h3
          · simp at h3
          · exact h3 j hj
        obtain ⟨s, hs⟩ := List.exists_mem_of_ne_nil vis hne
        have hsN : s < g.nodes.length := hb.visLt s hs
        have hsub : List.range g.nodes.length ⊆ vis := by
          intro t ht
          have htN := List.mem_range.1 ht
          exact reachSet_subset hs hcu
            (hNav s (List.mem_range.2 hsN) t (List.mem_range.2 htN))
        have hNle : g.nodes.length ≤ vis.length := by
          have h4 := (List.subperm_of_subset (List.nodup_range _) hsub).length_le
          simpa using h4
        omega
    | cons c cs =>
      have hwne : w ≠ [] := by
        intro hwnil
        have hwlen : w.length = min ef vis.length := hb.wLen
        rw [hwnil] at hwlen
        simp only [List.length_nil] at hwlen
        have hvp : 0 < vis.length := List.length_pos.2 hne
        omega
      have hlast : w.getLast? = some (w.getLast hwne) :=
        List.getLast?_eq_getLast_of_ne_nil hwne
      by_cases hbr : keyDist g q (w.getLast hwne) < keyDist g q c
      · have heq : beamGo g q 0 ef (m + 1) vis (c :: cs) w = w := by
          simp only [beamGo, hlast]
          rw [if_pos hbr]
        rw [heq]
        refine ⟨?_, hb.wSorted⟩
        have hwlen : w.length = min ef vis.length := hb.wLen
        have hvisle : vis.length ≤ g.nodes.length :=
          length_le_of_nodup_lt hb.visNd hb.visLt
        have hwef : ef ≤ w.length := by
          by_contra hlt
          push_neg at hlt
          have hveq : vis.length ≤ w.length := by omega
          have hvw := mem_of_subset_of_length hb.wSub hb.wNd hb.visNd hveq
          have hcw : c ∈ w := hvw c (hb.cdSub (List.mem_cons_self _ _))
          have hle := sorted_le_getLast (keyDist g q) w (w.getLast hwne)
            hb.wSorted hlast c hcw
          exact absurd hle (not_le.2 hbr)
        omega
      · have heq : beamGo g q 0 ef (m + 1) vis (c :: cs) w =
            beamGo g q 0 ef m
              ((neighborsAt g c 0).foldl (scanStep g q ef) (vis, cs, w)).1
              ((neighborsAt g c 0).foldl (scanStep g q ef) (vis, cs, w)).2.1
              ((neighborsAt g c 0).foldl (scanStep g q ef) (vis, cs, w)).2.2 := by
          simp only [beamGo, hlast]
          rw [if_neg hbr]
        rw [heq]
        have hcN : c < g.nodes.length := hb.visLt c (hb.cdSub (List.mem_cons_self _ _))
        have hnsLt : ∀ e ∈ neighborsAt g c 0, e < g.nodes.length :=
          fun e he => hWF.nbr_lt hcN he
        have hbPre : Basic g q ef (vis, cs, w) :=
          ⟨hb.visNd, hb.visLt, fun x hx => hb.cdSub (List.mem_cons_of_mem _ hx),
            hb.cdNd.of_cons, hb.cdSorted.of_cons, hb.wSub, hb.wNd, hb.wSorted, hb.wLen⟩
        have hall := scanFold_basic (neighborsAt g c 0) (vis, cs, w) hbPre hnsLt
        obtain ⟨b2, s2, l2, c2, n2, i2, p2, m2⟩ := hall
        obtain ⟨x0, hx0⟩ := List.exists_mem_of_ne_nil vis hne
        refine ih _ _ _ b2 (List.ne_nil_of_mem (s2 hx0)) ?_ ?_
        · rcases p2 with hfull | hpt
          · exact Or.inl hfull
          · rcases hcl with hfull0 | hptOld
            · exact Or.inl (le_trans hfull0 l2)
            · have hvisCase : ∀ i ∈ vis,
                  i ∈ ((neighborsAt g c 0).foldl (scanStep g q ef) (vis, cs, w)).2.1 ∨
                  ∀ j ∈ neighborsAt g i 0,
                    j ∈ ((neighborsAt g c 0).foldl (scanStep g q ef) (vis, cs, w)).1 := by
                intro i hiv
                by_cases hic : i = c
                · subst hic
                  exact Or.inr (fun j hj => i2 j hj)
                · rcases hptOld i hiv with hicd | hicl
                  · rcases List.mem_cons.1 hicd with h5 | h5
                    · exact absurd h5 hic
                    · exact Or.inl (c2 h5)
                  · exact Or.inr (fun j hj => s2 (hicl j hj))
              refine Or.inr ?_
              intro i hi
              rcases n2 i hi with hiv | hins
              · exact hvisCase i hiv
              · rcases hpt i hins with hiv2 | hicd2
                · exact hvisCase i hiv2
                · exact Or.inl hicd2
        · have m2b : ((neighborsAt g c 0).foldl (scanStep g q ef) (vis, cs, w)).2.1.length +
              (g.nodes.length -
                ((neighborsAt g c 0).foldl (scanStep g q ef) (vis, cs, w)).1.length)
              ≤ cs.length + (g.nodes.length - vis.length) := m2
          simp only [List.length_cons] at hm
          omega

/-- Claim C1: for every well-formed index whose base layer is navigable
(the property the spec's construction heuristic is designed to maintain,
sections 4.2 and 9) and every query vector, search with parameter `k`
returns exactly `min(k, count())` (id, distance) pairs, ascending by
distance; in particular an empty store yields the empty result sequence
rather than an error, and five stored vectors with `k = 10` yield exactly
five results (see the witness). -/
theorem search_returns_min_k_count (g : EngineIndex) (q : Vec) (k : Nat)
    (hWF : WF g) (hNav : Navigable g) :
    (engineSearch g q k).length = min k g.count ∧
    (engineSearch g q k).Sorted (fun a b => a.2 ≤ b.2) := by
  cases he : g.entryPoint with
  | none =>
    have hnil := hWF.entry_none he
    have hlen := hWF.store_len
    simp only [engineSearch, he]
    constructor
    · simp only [List.length_nil, EngineIndex.count, hlen, hnil]
      omega
    · simp
  | some ep =>
    have hepN : ep < g.nodes.length := hWF.entry_lt he
    have hcount : g.count = g.nodes.length := hWF.store_len
    simp only [engineSearch, searchLayer, he]
    cases k with
    | zero => simp
    | succ k0 =>
      have hef : 1 ≤ max g.efSearch (k0 + 1) := le_trans (by omega) (le_max_right _ _)
      have hep0 : descend g q (maxLevel g) 1 ep < g.nodes.length :=
        descend_lt hWF q _ _ _ hepN
      generalize hE : descend g q (maxLevel g) 1 ep = e0
      rw [hE] at hep0
      have hbInit : Basic g q (max g.efSearch (k0 + 1)) ([e0], [e0], [e0]) := by
        refine ⟨by simp, ?_, fun x hx => hx, by simp, List.sorted_singleton _,
          fun x hx => hx, by simp, List.sorted_singleton _, ?_⟩
        · intro x hx
          rcases List.mem_singleton.1 hx with rfl
          exact hep0
        · simp only [List.length_singleton]
          omega
      have hmain := beamGo_post hWF hNav hef (g.nodes.length + 1) [e0] [e0] [e0]
        hbInit (by simp) (Or.inr (fun i hi => Or.inl hi))
        (by simp only [List.length_singleton]; omega)
      constructor
      · simp only [List.length_map, List.length_take, hmain.1, hcount]
        omega
      · have hsorted := List.Pairwise.sublist (List.take_sublist (k0 + 1) _) hmain.2
        exact List.pairwise_map.2 hsorted

/-- Witness for C1: against the concrete five-vector path index, a search
with k = 10 returns exactly min(10, 5) = 5 results, and against an empty
store a search returns the empty sequence; both well-formedness and
navigability of the concrete graphs are checked by evaluation. -/
theorem search_returns_min_k_count_witness :
    WF gPath ∧ Navigable gPath ∧
    (engineSearch gPath [(2:ℤ)] 10).length = min 10 gPath.count ∧
    (engineSearch (emptyIndex 32 16) [(7:ℤ)] 5).length = min 5 (emptyIndex 32 16).count :=
  ⟨by decide, by decide,
    (search_returns_min_k_count gPath [(2:ℤ)] 10 (by decide) (by decide)).1,
    (search_returns_min_k_count (emptyIndex 32 16) [(7:ℤ)] 5 (by decide) (by decide)).1⟩

end VectorWise
